import Mathlib

set_option maxRecDepth 8000

/-!
Shallow embedding of the floorplan layout and export engine of this
repository (source files gui_min.py and ingest_netlist.py) together with
proofs settling the frozen claims about its specification.

Numbers: Python ints and floats are modelled by the exact rationals;
every arithmetic step of the embedded code is exact in the source as well
on the inputs the theorems evaluate, so the embedding is faithful there.

Strings: Python strings are modelled as lists of characters; comparison
of such lists is lexicographic by code point, exactly as in Python.
-/

/-- Characters of a Python string, compared lexicographically by code
point just as Python compares strings. -/
abbrev Str : Type := List Char

/-- Coerces a Lean string literal to the character-list model. -/
def str (s : String) : Str := s.toList

/-- Rounding of Python 3, from the builtin round with no digits argument:
nearest integer, with exact halves going to the even integer. Used by the
embedded code wherever the source calls round. -/
def pythonRound (x : ℚ) : ℤ :=
  let f : ℤ := ⌊x⌋
  if x - f < 1/2 then f
  else if (1:ℚ)/2 < x - f then f + 1
  else if 2 ∣ f then f else f + 1

/-- Grid snapping helper, from gui_min.py line 37: returns
round(v divided by g) scaled back by g. -/
def _snap (v g : ℚ) : ℚ :=
  ((pythonRound (v / g) : ℤ) : ℚ) * g

/-- Modelled from the spec: rounding half away from zero on the ratio
(a ratio of exactly one half rounds to one, minus one half to minus one).
Written only to be compared against the code's rounding in claim C3. -/
def roundHalfAway (x : ℚ) : ℤ :=
  if 0 ≤ x then ⌊x + 1/2⌋ else ⌈x - 1/2⌉

/-- Modelled from the spec: snap as the spec words it for claim C3,
round half away from zero on the ratio, then scale. -/
def snapSpec (v g : ℚ) : ℚ :=
  ((roundHalfAway (v / g) : ℤ) : ℚ) * g

/-- Side of the core perimeter. -/
inductive Side where
  | N
  | S
  | W
  | E
deriving DecidableEq, Repr

/-- Side selection of PinItem, from gui_min.py line 343: the Python min
over the list [(N, dN), (S, dS), (W, dW), (E, dE)] keyed by distance
keeps the earliest entry and replaces it only on a strictly smaller key,
so exact ties go to the earliest side in the order N, S, W, E. -/
def chooseSide (dN dS dW dE : ℚ) : Side :=
  let s1 : Side := if dS < dN then Side.S else Side.N
  let d1 : ℚ := if dS < dN then dS else dN
  let s2 : Side := if dW < d1 then Side.W else s1
  let d2 : ℚ := if dW < d1 then dW else d1
  if dE < d2 then Side.E else s2

/-- Projection branches of PinItem, from gui_min.py lines 346 to 358:
given the already chosen side, pin the perpendicular coordinate flush
against that edge and snap then clamp the coordinate running along it. -/
def projectOnSide (size grid left top right bottom x y : ℚ) :
    Side → ℚ × ℚ × Side
  | Side.N => (max left (min (_snap x grid) (right - size)), top - size, Side.N)
  | Side.S => (max left (min (_snap x grid) (right - size)), bottom, Side.S)
  | Side.W => (left - size, max top (min (_snap y grid) (bottom - size)), Side.W)
  | Side.E => (right, max top (min (_snap y grid) (bottom - size)), Side.E)

/-- Perimeter projection of a pin, from PinItem at gui_min.py lines 323
to 358: compute the pin center, choose the nearest core edge by center to
edge distance, and project onto that side. Returns the corrected corner
and the side. -/
def projectToPerimeter (size grid left top right bottom x y : ℚ) :
    ℚ × ℚ × Side :=
  projectOnSide size grid left top right bottom x y
    (chooseSide (|y + size / 2 - top|) (|y + size / 2 - bottom|)
      (|x + size / 2 - left|) (|x + size / 2 - right|))

/-- Axis-aligned rectangle given by its top left corner and its size, the
model of QRectF values handled by the placement validator. -/
structure RectQ where
  x : ℚ
  y : ℚ
  w : ℚ
  h : ℚ
deriving DecidableEq, Repr

/-- QRectF adjusted by minus m on the left and top and plus m on the
right and bottom, the halo expansion applied in Main at gui_min.py
line 652. -/
def adjustedBy (r : RectQ) (m : ℚ) : RectQ :=
  ⟨r.x - m, r.y - m, r.w + 2 * m, r.h + 2 * m⟩

/-- QRectF intersection test: true exactly when the two rectangles share
a region of positive area, so rectangles that merely touch along an edge
do not intersect. -/
def intersects (a b : RectQ) : Prop :=
  a.x < b.x + b.w ∧ b.x < a.x + a.w ∧ a.y < b.y + b.h ∧ b.y < a.y + a.h

instance (a b : RectQ) : Decidable (intersects a b) := by
  unfold intersects
  infer_instance

/-- Occupancy test of Main, from gui_min.py lines 636 to 658: the probe
rectangle collides when its halo expansion meets the halo expansion of
any module other than the ignored instance. -/
def occupiedL (mods : List (Str × RectQ)) (ignore : Str) (halo : ℚ)
    (rect : RectQ) : Prop :=
  ∃ m ∈ mods, m.1 ≠ ignore ∧
    intersects (adjustedBy rect halo) (adjustedBy m.2 halo)

instance (mods : List (Str × RectQ)) (ignore : Str) (halo : ℚ)
    (rect : RectQ) : Decidable (occupiedL mods ignore halo rect) := by
  unfold occupiedL
  infer_instance

/-- Snap and clamp of a proposed block position, from BlockItem at
gui_min.py lines 219 to 230: both coordinates are snapped to the grid and
clamped so the w by h rectangle stays inside the core rectangle. -/
def blockCandidate (grid left top right bottom w h px py : ℚ) : ℚ × ℚ :=
  let xs := _snap px grid
  let ys := _snap py grid
  let minx := left
  let miny := top
  let maxx := right - w
  let maxy := bottom - h
  (min (max minx xs) maxx, min (max miny ys) maxy)

/-- Position-change handling of BlockItem, from gui_min.py lines 219 to
237: snap and clamp the proposed position, then either revert to the last
stored position of the module when the candidate collides, or accept the
corrected candidate. -/
def blockItemChange (grid halo left top right bottom w h : ℚ)
    (mods : List (Str × RectQ)) (inst : Str) (oldx oldy px py : ℚ) :
    ℚ × ℚ :=
  let c := blockCandidate grid left top right bottom w h px py
  if occupiedL mods inst halo ⟨c.1, c.2, w, h⟩ then (oldx, oldy) else c

/-- Integer square root by bounded search, exact on perfect squares:
the largest k not exceeding n whose square is at most n. -/
def intSqrt (n : ℕ) : ℕ :=
  (List.range (n + 1)).foldl (fun acc k => if k * k ≤ n then k else acc) 0

/-- Model of math.sqrt as used by build_design in ingest_netlist.py
line 99: exact whenever the argument is the square of a natural number,
which covers every area the theorems below evaluate (Python float sqrt is
also exact there). -/
def pySqrt (q : ℚ) : ℚ :=
  (intSqrt q.num.toNat : ℚ)

/-- Base magnitude of a module from its area hint, ingest_netlist.py
line 99: the square root of the area floored at one. -/
def moduleBase (area : ℚ) : ℚ :=
  max 1 (pySqrt area)

/-- Row packing loop of build_design, ingest_netlist.py lines 128 to 155:
walks the scaled modules left to right, wrapping to a fresh row below the
tallest block of the current row when the next block would cross the
right core bound. Returns instance, side, x, y per module. -/
def packRows (die_w core_margin grid min_side : ℤ) (k : ℚ) :
    List (Str × ℚ) → ℤ → ℤ → ℤ → List (Str × ℤ × ℤ × ℤ)
  | [], _, _, _ => []
  | m :: rest, x, y, row_h =>
      let side : ℤ := max min_side (pythonRound (moduleBase m.2 * k))
      let x0 : ℤ := if die_w - core_margin < x + side then core_margin + grid else x
      let y0 : ℤ := if die_w - core_margin < x + side then y + row_h + grid else y
      let rh0 : ℤ := if die_w - core_margin < x + side then 0 else row_h
      (m.1, side, x0, y0) ::
        packRows die_w core_margin grid min_side k rest
          (x0 + side + grid) y0 (max rh0 side)

/-- Initial sizing and packing of build_design, ingest_netlist.py lines
108 to 155: derives the core, the common scale factor k from the largest
base and the target maximal side, then row packs all modules as squares.
Takes the module list as instance name and area hint pairs. -/
def buildDesignModules (die_w die_h grid core_margin : ℤ)
    (max_side_frac : ℚ) (min_side_px : ℤ) (mods : List (Str × ℚ)) :
    List (Str × ℤ × ℤ × ℤ) :=
  let core_w : ℤ := max 1 (die_w - 2 * core_margin)
  let core_h : ℤ := max 1 (die_h - 2 * core_margin)
  let die_min : ℤ := min core_w core_h
  let max_base : ℚ := (mods.map (fun m => moduleBase m.2)).foldr max 1
  let target_max_side : ℤ :=
    max min_side_px (pythonRound ((die_min : ℚ) * max_side_frac))
  let k : ℚ := (target_max_side : ℚ) / max_base
  let min_side : ℤ := max (2 * grid) min_side_px
  packRows die_w core_margin grid min_side k mods
    (core_margin + grid) (core_margin + grid) 0

/-- Endpoint string inst.port or top.name, built exactly as the format
strings at ingest_netlist.py lines 167 and 173 build them. -/
def mkEp (owner port : Str) : Str :=
  owner ++ '.' :: port

/-- Name used for the top module side of endpoints. -/
def topName : Str := str "top"

/-- Endpoint list of one bit, from the bit_eps dictionary built at
ingest_netlist.py lines 159 to 173: one entry per occurrence of the bit
in a cell connection, in cell then port then bit scan order, followed by
one entry per occurrence in a top port bit list. -/
def bitEndpoints (cells : List (Str × List (Str × List ℤ)))
    (tops : List (Str × List ℤ)) (bit : ℤ) : List Str :=
  (cells.bind fun c =>
    c.2.bind fun pc =>
      (pc.2.filter (fun b => b = bit)).map fun _ => mkEp c.1 pc.1) ++
  (tops.bind fun p =>
    (p.2.filter (fun b => b = bit)).map fun _ => mkEp topName p.1)

/-- Net record emitted into design.json by build_design, ingest_netlist.py
lines 192 to 197. -/
structure NetOut where
  name : Str
  endpoints : List Str
  weight : ℕ
  bw : ℕ
deriving DecidableEq, Repr

/-- Sorted deduplicated endpoint union of a net, the Python expression
sorted(set(eps)) at ingest_netlist.py line 186 applied to the
concatenated per-bit endpoint lists. -/
def sortedNetEps (cells : List (Str × List (Str × List ℤ)))
    (tops : List (Str × List ℤ)) (bits : List ℤ) : List Str :=
  List.insertionSort (· ≤ ·) ((bits.bind (bitEndpoints cells tops)).dedup)

/-- Emission of one declared net by build_design, ingest_netlist.py lines
177 to 197: the net is kept only when at least two distinct endpoints
remain, with weight one less than the endpoint count and bus width the
bit count floored at one. -/
def emitNet (cells : List (Str × List (Str × List ℤ)))
    (tops : List (Str × List ℤ)) (nn : Str × List ℤ) : Option NetOut :=
  let eps := sortedNetEps cells tops nn.2
  if 2 ≤ eps.length then
    some ⟨nn.1, eps, eps.length - 1, max 1 nn.2.length⟩
  else none

/-- All nets emitted by build_design in declaration order. -/
def netsOut (cells : List (Str × List (Str × List ℤ)))
    (tops : List (Str × List ℤ)) (nets : List (Str × List ℤ)) :
    List NetOut :=
  nets.filterMap (emitNet cells tops)

/-- Test for a top pin endpoint, the startswith check on the prefix
top dot used at gui_min.py lines 873 and 909. -/
def epIsTop (ep : Str) : Bool :=
  ep.take 4 = str "top."

/-- Pin name of a top endpoint, the part after the first dot as computed
by split with count one at gui_min.py line 873; on an endpoint carrying
the top dot prefix the first dot sits at index three, so this is the
string with its first four characters removed. -/
def epPinName (ep : Str) : Str :=
  ep.drop 4

/-- Module instance of a non top endpoint, the part before the first dot
as computed by split with count one at gui_min.py line 874. -/
def epModName (ep : Str) : Str :=
  ep.takeWhile (fun c => c ≠ '.')

/-- Distinct module instances named by the endpoints of a net, the set
built at gui_min.py lines 870 to 875. -/
def netModsL (eps : List Str) : List Str :=
  ((eps.filter (fun e => ¬ epIsTop e)).map epModName).dedup

/-- Distinct top pin names named by the endpoints of a net, the set built
at gui_min.py lines 870 to 873. -/
def netPinsL (eps : List Str) : List Str :=
  ((eps.filter (fun e => epIsTop e)).map epPinName).dedup

/-- Order-independent pair key, the helper _pair at gui_min.py line 51:
the two components sorted ascending. -/
def pairKey (a b : Str) : Str × Str :=
  if a ≤ b then (a, b) else (b, a)

/-- All index-ordered pairs of a list, the double loop over i and j
greater than i at gui_min.py lines 878 to 879. -/
def listPairs : List Str → List (Str × Str)
  | [] => []
  | a :: t => (t.map fun b => (a, b)) ++ listPairs t

/-- Single increment of a weight dictionary at one key, the statements
adding w at gui_min.py lines 881 and 887. -/
def bump (f : Str × Str → ℚ) (k : Str × Str) (w : ℚ) : Str × Str → ℚ :=
  fun k' => if k' = k then f k' + w else f k'

/-- Net record as read back by the GUI from design.json. -/
structure GNet where
  endpoints : List Str
  weight : ℚ
  bw : ℚ
deriving Repr

/-- Contribution of one net to the module to module weights, the inner
double loop of _build_connectivity at gui_min.py lines 878 to 883. -/
def addNetMM (f : Str × Str → ℚ) (net : GNet) : Str × Str → ℚ :=
  (listPairs (netModsL net.endpoints)).foldl
    (fun g p => bump g (pairKey p.1 p.2) net.bw) f

/-- Contribution of one net to the module to pin weights, the loops at
gui_min.py lines 885 to 889. -/
def addNetMP (f : Str × Str → ℚ) (net : GNet) : Str × Str → ℚ :=
  ((netModsL net.endpoints).bind fun m =>
      (netPinsL net.endpoints).map fun p => (m, p)).foldl
    (fun g k => bump g k net.bw) f

/-- Module to module connectivity weights of _build_connectivity,
gui_min.py lines 857 to 894, as a total map from pair keys to weights. -/
def buildMM (nets : List GNet) : Str × Str → ℚ :=
  nets.foldl addNetMM (fun _ => 0)

/-- Module to pin connectivity weights of _build_connectivity,
gui_min.py lines 857 to 894, as a total map from pairs to weights. -/
def buildMP (nets : List GNet) : Str × Str → ℚ :=
  nets.foldl addNetMP (fun _ => 0)

/-- Placed module as the HPWL estimator sees it: instance name, top left
corner and size. -/
structure ModRec where
  inst : Str
  x : ℚ
  y : ℚ
  w : ℚ
  h : ℚ
deriving Repr

/-- Placed pin as the HPWL estimator sees it: name, top left corner and
square size. -/
structure PinRec where
  name : Str
  x : ℚ
  y : ℚ
  size : ℚ
deriving Repr

/-- Center of a block by instance name, _center_block at gui_min.py
lines 827 to 840; none when the instance is unknown. -/
def centerBlock (mods : List ModRec) (inst : Str) : Option (ℚ × ℚ) :=
  (mods.find? (fun m => m.inst = inst)).map fun m =>
    (m.x + m.w / 2, m.y + m.h / 2)

/-- Center of a pin by name, _center_pin at gui_min.py lines 842 to 854;
none when the pin is unknown. -/
def centerPin (pins : List PinRec) (name : Str) : Option (ℚ × ℚ) :=
  (pins.find? (fun p => p.name = name)).map fun p =>
    (p.x + p.size / 2, p.y + p.size / 2)

/-- Resolution of one endpoint to a representative point, the branch at
gui_min.py lines 907 to 911: top endpoints resolve through the pin table,
all others through the block table. -/
def resolveEp (mods : List ModRec) (pins : List PinRec) (ep : Str) :
    Option (ℚ × ℚ) :=
  if epIsTop ep then centerPin pins (epPinName ep)
  else centerBlock mods (epModName ep)

/-- Python max over a nonempty list, left fold from the first element;
zero on the empty list, which the callers guard against. -/
def maxD : List ℚ → ℚ
  | [] => 0
  | a :: t => t.foldl max a

/-- Python min over a nonempty list, left fold from the first element;
zero on the empty list, which the callers guard against. -/
def minD : List ℚ → ℚ
  | [] => 0
  | a :: t => t.foldl min a

/-- HPWL of one net, _hpwl_net at gui_min.py lines 898 to 919: resolve
the endpoints, drop the unresolved ones, return zero below two points and
otherwise the x spread plus the y spread of the resolved points. -/
def hpwlNet (mods : List ModRec) (pins : List PinRec) (eps : List Str) :
    ℚ :=
  let pts := eps.filterMap (resolveEp mods pins)
  if pts.length < 2 then 0
  else
    (maxD (pts.map Prod.fst) - minD (pts.map Prod.fst)) +
      (maxD (pts.map Prod.snd) - minD (pts.map Prod.snd))

/-- Total HPWL of _update_hpwl at gui_min.py lines 921 to 935: the sum of
the per net values over the first five hundred nets in declaration
order. -/
def totalHPWL (mods : List ModRec) (pins : List PinRec)
    (nets : List GNet) : ℚ :=
  ((nets.take 500).map fun n => hpwlNet mods pins n.endpoints).sum

/-- Per-bit offset loop of _write_pin_placement_cfg, gui_min.py lines
1348 to 1359: bit i is placed at start plus i steps, clamped into the
side range, and forced forward to at most one step past the cursor, never
beyond the range end, whenever it would not pass the cursor; the cursor
follows every emitted offset. Returns the offsets and the final cursor.
The emitted bit name does not influence any offset, so only offsets are
recorded. -/
def placeBits (step minOff maxOff start : ℤ) :
    ℕ → ℕ → ℤ → List ℤ × ℤ
  | 0, _, cursor => ([], cursor)
  | n + 1, i, cursor =>
      let off0 : ℤ := max minOff (min (start + (i : ℤ) * step) maxOff)
      let off : ℤ := if off0 ≤ cursor then min (cursor + step) maxOff else off0
      let rec' := placeBits step minOff maxOff start n (i + 1) off
      (off :: rec'.1, rec'.2)

/-- Per-pin block of _write_pin_placement_cfg, gui_min.py lines 1333 to
1359: look up the port width by name with default one, derive the bit
count of the expanded bus (a width at most one still yields one bit),
center the bit run around the pin coordinate and clamp its start between
one step past the cursor and the last start that keeps the run inside the
side, then emit the bits. -/
def placePin (step minOff maxOff : ℤ) (ports : List (Str × ℤ))
    (cursor : ℤ) (pin : Str × ℤ) : List ℤ × ℤ :=
  let width : ℤ := (((ports.find? fun p => p.1 = pin.1).map Prod.snd).getD 1)
  let nbits : ℕ := if width ≤ 1 then 1 else width.toNat
  let total_span : ℤ := step * (width - 1)
  let ideal_start : ℤ := pythonRound ((pin.2 : ℚ) - (total_span : ℚ) / 2)
  let lo : ℤ := max minOff (cursor + step)
  let hi : ℤ := max minOff (maxOff - total_span)
  let start : ℤ := max lo (min ideal_start hi)
  placeBits step minOff maxOff start nbits 0 cursor

/-- One side of _write_pin_placement_cfg, gui_min.py lines 1320 to 1359:
the cursor starts far below the range and every pin of the side, already
sorted along the side, appends its bit offsets. -/
def placeSide (step minOff maxOff : ℤ) (ports : List (Str × ℤ))
    (pins : List (Str × ℤ)) : List ℤ :=
  (pins.foldl
    (fun acc pin =>
      let r := placePin step minOff maxOff ports acc.2 pin
      (acc.1 ++ r.1, r.2))
    (([] : List ℤ), -(10 ^ 9 : ℤ))).1

theorem fract_decomp (x : ℚ) : x = (⌊x⌋ : ℚ) + Int.fract x := by
  rw [Int.fract]
  ring

theorem pythonRound_of_fract_lt {x : ℚ} (h : Int.fract x < 1/2) :
    pythonRound x = ⌊x⌋ := by
  have hd : x - (⌊x⌋ : ℚ) = Int.fract x := by rw [Int.fract]
  unfold pythonRound
  rw [if_pos (by rw [hd]; exact h)]

theorem pythonRound_of_lt_fract {x : ℚ} (h : 1/2 < Int.fract x) :
    pythonRound x = ⌊x⌋ + 1 := by
  have hd : x - (⌊x⌋ : ℚ) = Int.fract x := by rw [Int.fract]
  unfold pythonRound
  rw [if_neg (by rw [hd]; exact not_lt.mpr h.le),
    if_pos (by rw [hd]; exact h)]

theorem pythonRound_of_fract_eq {x : ℚ} (h : Int.fract x = 1/2) :
    pythonRound x = if 2 ∣ ⌊x⌋ then ⌊x⌋ else ⌊x⌋ + 1 := by
  have hd : x - (⌊x⌋ : ℚ) = Int.fract x := by rw [Int.fract]
  unfold pythonRound
  rw [if_neg (by rw [hd, h]; exact lt_irrefl _),
    if_neg (by rw [hd, h]; exact lt_irrefl _)]

theorem pythonRound_eq_roundHalfAway {x : ℚ} (h : Int.fract x ≠ 1/2) :
    pythonRound x = roundHalfAway x := by
  have hx : x = (⌊x⌋ : ℚ) + Int.fract x := fract_decomp x
  have h0 : 0 ≤ Int.fract x := Int.fract_nonneg x
  have h1 : Int.fract x < 1 := Int.fract_lt_one x
  rcases lt_or_gt_of_ne h with hlt | hgt
  · rw [pythonRound_of_fract_lt hlt]
    unfold roundHalfAway
    split_ifs with hs
    · exact (Int.floor_eq_iff.mpr ⟨by push_cast; linarith, by push_cast; linarith⟩).symm
    · exact (Int.ceil_eq_iff.mpr ⟨by push_cast; linarith, by push_cast; linarith⟩).symm
  · rw [pythonRound_of_lt_fract hgt]
    unfold roundHalfAway
    split_ifs with hs
    · exact (Int.floor_eq_iff.mpr ⟨by push_cast; linarith, by push_cast; linarith⟩).symm
    · exact (Int.ceil_eq_iff.mpr ⟨by push_cast; linarith, by push_cast; linarith⟩).symm

/-- C3 (corrected): for every v and every grid g greater than zero, the
code's snap rounds the ratio v over g half to even, not half away from
zero: it agrees with rounding half away from zero whenever the fractional
part of the ratio is not exactly one half, and at an exact half it picks
the even of the two neighbouring integers before scaling by g. -/
theorem snap_c3_amended (v g : ℚ) (hg : 0 < g) :
    (Int.fract (v / g) ≠ 1/2 → _snap v g = snapSpec v g) ∧
    (Int.fract (v / g) = 1/2 →
      _snap v g =
        ((if 2 ∣ ⌊v / g⌋ then ⌊v / g⌋ else ⌊v / g⌋ + 1 : ℤ) : ℚ) * g) := by
  constructor
  · intro hne
    unfold _snap snapSpec
    rw [pythonRound_eq_roundHalfAway hne]
  · intro heq
    unfold _snap
    rw [pythonRound_of_fract_eq heq]

/-- C3 witness: concrete application at v equal 25 and g equal 20, whose
ratio five fourths is not a tie, so the two roundings agree there. -/
theorem snap_c3_witness :
    (0:ℚ) < 20 ∧ Int.fract ((25:ℚ) / 20) ≠ 1/2 ∧ _snap 25 20 = snapSpec 25 20 :=
  ⟨by norm_num, by norm_num [Int.fract], (snap_c3_amended 25 20 (by norm_num)).1 (by norm_num [Int.fract])⟩

/-- C3 counterexample: at v equal 10 and g equal 20 the ratio is exactly
one half; the code rounds it to zero (half to even) while the claimed
rounding half away from zero would give one, so snap returns 0 and not
the claimed 20. -/
theorem snap_c3_counterexample :
    _snap 10 20 = 0 ∧ snapSpec 10 20 = 20 ∧ _snap 10 20 ≠ snapSpec 10 20 := by
  refine ⟨?_, ?_, ?_⟩ <;>
    norm_num [_snap, snapSpec, pythonRound, roundHalfAway]

theorem chooseSide_eq_N_iff (dN dS dW dE : ℚ) :
    chooseSide dN dS dW dE = Side.N ↔ dN ≤ dS ∧ dN ≤ dW ∧ dN ≤ dE := by
  simp only [chooseSide]
  rcases lt_or_le dS dN with h1 | h1
  · simp only [if_pos h1]
    rcases lt_or_le dW dS with h2 | h2
    · simp only [if_pos h2]
      rcases lt_or_le dE dW with h3 | h3
      · simp only [if_pos h3]
        constructor
        · intro hh
          first
            | exact ⟨by linarith, by linarith, by linarith⟩
            | cases hh
        · rintro ⟨ha, hb, hc⟩
          first
            | trivial
            | (exfalso; linarith)
      · simp only [if_neg (not_lt.mpr h3)]
        constructor
        · intro hh
          first
            | exact ⟨by linarith, by linarith, by linarith⟩
            | cases hh
        · rintro ⟨ha, hb, hc⟩
          first
            | trivial
            | (exfalso; linarith)
    · simp only [if_neg (not_lt.mpr h2)]
      rcases lt_or_le dE dS with h3 | h3
      · simp only [if_pos h3]
        constructor
        · intro hh
          first
            | exact ⟨by linarith, by linarith, by linarith⟩
            | cases hh
        · rintro ⟨ha, hb, hc⟩
          first
            | trivial
            | (exfalso; linarith)
      · simp only [if_neg (not_lt.mpr h3)]
        constructor
        · intro hh
          first
            | exact ⟨by linarith, by linarith, by linarith⟩
            | cases hh
        · rintro ⟨ha, hb, hc⟩
          first
            | trivial
            | (exfalso; linarith)
  · simp only [if_neg (not_lt.mpr h1)]
    rcases lt_or_le dW dN with h2 | h2
    · simp only [if_pos h2]
      rcases lt_or_le dE dW with h3 | h3
      · simp only [if_pos h3]
        constructor
        · intro hh
          first
            | exact ⟨by linarith, by linarith, by linarith⟩
            | cases hh
        · rintro ⟨ha, hb, hc⟩
          first
            | trivial
            | (exfalso; linarith)
      · simp only [if_neg (not_lt.mpr h3)]
        constructor
        · intro hh
          first
            | exact ⟨by linarith, by linarith, by linarith⟩
            | cases hh
        · rintro ⟨ha, hb, hc⟩
          first
            | trivial
            | (exfalso; linarith)
    · simp only [if_neg (not_lt.mpr h2)]
      rcases lt_or_le dE dN with h3 | h3
      · simp only [if_pos h3]
        constructor
        · intro hh
          first
            | exact ⟨by linarith, by linarith, by linarith⟩
            | cases hh
        · rintro ⟨ha, hb, hc⟩
          first
            | trivial
            | (exfalso; linarith)
      · simp only [if_neg (not_lt.mpr h3)]
        constructor
        · intro hh
          first
            | exact ⟨by linarith, by linarith, by linarith⟩
            | cases hh
        · rintro ⟨ha, hb, hc⟩
          first
            | trivial
            | (exfalso; linarith)

theorem chooseSide_eq_S_iff (dN dS dW dE : ℚ) :
    chooseSide dN dS dW dE = Side.S ↔ dS < dN ∧ dS ≤ dW ∧ dS ≤ dE := by
  simp only [chooseSide]
  rcases lt_or_le dS dN with h1 | h1
  · simp only [if_pos h1]
    rcases lt_or_le dW dS with h2 | h2
    · simp only [if_pos h2]
      rcases lt_or_le dE dW with h3 | h3
      · simp only [if_pos h3]
        constructor
        · intro hh
          first
            | exact ⟨by linarith, by linarith, by linarith⟩
            | cases hh
        · rintro ⟨ha, hb, hc⟩
          first
            | trivial
            | (exfalso; linarith)
      · simp only [if_neg (not_lt.mpr h3)]
        constructor
        · intro hh
          first
            | exact ⟨by linarith, by linarith, by linarith⟩
            | cases hh
        · rintro ⟨ha, hb, hc⟩
          first
            | trivial
            | (exfalso; linarith)
    · simp only [if_neg (not_lt.mpr h2)]
      rcases lt_or_le dE dS with h3 | h3
      · simp only [if_pos h3]
        constructor
        · intro hh
          first
            | exact ⟨by linarith, by linarith, by linarith⟩
            | cases hh
        · rintro ⟨ha, hb, hc⟩
          first
            | trivial
            | (exfalso; linarith)
      · simp only [if_neg (not_lt.mpr h3)]
        constructor
        · intro hh
          first
            | exact ⟨by linarith, by linarith, by linarith⟩
            | cases hh
        · rintro ⟨ha, hb, hc⟩
          first
            | trivial
            | (exfalso; linarith)
  · simp only [if_neg (not_lt.mpr h1)]
    rcases lt_or_le dW dN with h2 | h2
    · simp only [if_pos h2]
      rcases lt_or_le dE dW with h3 | h3
      · simp only [if_pos h3]
        constructor
        · intro hh
          first
            | exact ⟨by linarith, by linarith, by linarith⟩
            | cases hh
        · rintro ⟨ha, hb, hc⟩
          first
            | trivial
            | (exfalso; linarith)
      · simp only [if_neg (not_lt.mpr h3)]
        constructor
        · intro hh
          first
            | exact ⟨by linarith, by linarith, by linarith⟩
            | cases hh
        · rintro ⟨ha, hb, hc⟩
          first
            | trivial
            | (exfalso; linarith)
    · simp only [if_neg (not_lt.mpr h2)]
      rcases lt_or_le dE dN with h3 | h3
      · simp only [if_pos h3]
        constructor
        · intro hh
          first
            | exact ⟨by linarith, by linarith, by linarith⟩
            | cases hh
        · rintro ⟨ha, hb, hc⟩
          first
            | trivial
            | (exfalso; linarith)
      · simp only [if_neg (not_lt.mpr h3)]
        constructor
        · intro hh
          first
            | exact ⟨by linarith, by linarith, by linarith⟩
            | cases hh
        · rintro ⟨ha, hb, hc⟩
          first
            | trivial
            | (exfalso; linarith)

theorem chooseSide_eq_W_iff (dN dS dW dE : ℚ) :
    chooseSide dN dS dW dE = Side.W ↔ dW < dN ∧ dW < dS ∧ dW ≤ dE := by
  simp only [chooseSide]
  rcases lt_or_le dS dN with h1 | h1
  · simp only [if_pos h1]
    rcases lt_or_le dW dS with h2 | h2
    · simp only [if_pos h2]
      rcases lt_or_le dE dW with h3 | h3
      · simp only [if_pos h3]
        constructor
        · intro hh
          first
            | exact ⟨by linarith, by linarith, by linarith⟩
            | cases hh
        · rintro ⟨ha, hb, hc⟩
          first
            | trivial
            | (exfalso; linarith)
      · simp only [if_neg (not_lt.mpr h3)]
        constructor
        · intro hh
          first
            | exact ⟨by linarith, by linarith, by linarith⟩
            | cases hh
        · rintro ⟨ha, hb, hc⟩
          first
            | trivial
            | (exfalso; linarith)
    · simp only [if_neg (not_lt.mpr h2)]
      rcases lt_or_le dE dS with h3 | h3
      · simp only [if_pos h3]
        constructor
        · intro hh
          first
            | exact ⟨by linarith, by linarith, by linarith⟩
            | cases hh
        · rintro ⟨ha, hb, hc⟩
          first
            | trivial
            | (exfalso; linarith)
      · simp only [if_neg (not_lt.mpr h3)]
        constructor
        · intro hh
          first
            | exact ⟨by linarith, by linarith, by linarith⟩
            | cases hh
        · rintro ⟨ha, hb, hc⟩
          first
            | trivial
            | (exfalso; linarith)
  · simp only [if_neg (not_lt.mpr h1)]
    rcases lt_or_le dW dN with h2 | h2
    · simp only [if_pos h2]
      rcases lt_or_le dE dW with h3 | h3
      · simp only [if_pos h3]
        constructor
        · intro hh
          first
            | exact ⟨by linarith, by linarith, by linarith⟩
            | cases hh
        · rintro ⟨ha, hb, hc⟩
          first
            | trivial
            | (exfalso; linarith)
      · simp only [if_neg (not_lt.mpr h3)]
        constructor
        · intro hh
          first
            | exact ⟨by linarith, by linarith, by linarith⟩
            | cases hh
        · rintro ⟨ha, hb, hc⟩
          first
            | trivial
            | (exfalso; linarith)
    · simp only [if_neg (not_lt.mpr h2)]
      rcases lt_or_le dE dN with h3 | h3
      · simp only [if_pos h3]
        constructor
        · intro hh
          first
            | exact ⟨by linarith, by linarith, by linarith⟩
            | cases hh
        · rintro ⟨ha, hb, hc⟩
          first
            | trivial
            | (exfalso; linarith)
      · simp only [if_neg (not_lt.mpr h3)]
        constructor
        · intro hh
          first
            | exact ⟨by linarith, by linarith, by linarith⟩
            | cases hh
        · rintro ⟨ha, hb, hc⟩
          first
            | trivial
            | (exfalso; linarith)

theorem chooseSide_eq_E_iff (dN dS dW dE : ℚ) :
    chooseSide dN dS dW dE = Side.E ↔ dE < dN ∧ dE < dS ∧ dE < dW := by
  simp only [chooseSide]
  rcases lt_or_le dS dN with h1 | h1
  · simp only [if_pos h1]
    rcases lt_or_le dW dS with h2 | h2
    · simp only [if_pos h2]
      rcases lt_or_le dE dW with h3 | h3
      · simp only [if_pos h3]
        constructor
        · intro hh
          first
            | exact ⟨by linarith, by linarith, by linarith⟩
            | cases hh
        · rintro ⟨ha, hb, hc⟩
          first
            | trivial
            | (exfalso; linarith)
      · simp only [if_neg (not_lt.mpr h3)]
        constructor
        · intro hh
          first
            | exact ⟨by linarith, by linarith, by linarith⟩
            | cases hh
        · rintro ⟨ha, hb, hc⟩
          first
            | trivial
            | (exfalso; linarith)
    · simp only [if_neg (not_lt.mpr h2)]
      rcases lt_or_le dE dS with h3 | h3
      · simp only [if_pos h3]
        constructor
        · intro hh
          first
            | exact ⟨by linarith, by linarith, by linarith⟩
            | cases hh
        · rintro ⟨ha, hb, hc⟩
          first
            | trivial
            | (exfalso; linarith)
      · simp only [if_neg (not_lt.mpr h3)]
        constructor
        · intro hh
          first
            | exact ⟨by linarith, by linarith, by linarith⟩
            | cases hh
        · rintro ⟨ha, hb, hc⟩
          first
            | trivial
            | (exfalso; linarith)
  · simp only [if_neg (not_lt.mpr h1)]
    rcases lt_or_le dW dN with h2 | h2
    · simp only [if_pos h2]
      rcases lt_or_le dE dW with h3 | h3
      · simp only [if_pos h3]
        constructor
        · intro hh
          first
            | exact ⟨by linarith, by linarith, by linarith⟩
            | cases hh
        · rintro ⟨ha, hb, hc⟩
          first
            | trivial
            | (exfalso; linarith)
      · simp only [if_neg (not_lt.mpr h3)]
        constructor
        · intro hh
          first
            | exact ⟨by linarith, by linarith, by linarith⟩
            | cases hh
        · rintro ⟨ha, hb, hc⟩
          first
            | trivial
            | (exfalso; linarith)
    · simp only [if_neg (not_lt.mpr h2)]
      rcases lt_or_le dE dN with h3 | h3
      · simp only [if_pos h3]
        constructor
        · intro hh
          first
            | exact ⟨by linarith, by linarith, by linarith⟩
            | cases hh
        · rintro ⟨ha, hb, hc⟩
          first
            | trivial
            | (exfalso; linarith)
      · simp only [if_neg (not_lt.mpr h3)]
        constructor
        · intro hh
          first
            | exact ⟨by linarith, by linarith, by linarith⟩
            | cases hh
        · rintro ⟨ha, hb, hc⟩
          first
            | trivial
            | (exfalso; linarith)


/-- C4 (corrected): for every pin and proposed position (with a pin that
fits each side span), the projection chooses the side of minimal center
to edge distance with exact ties broken in the fixed order N, S, W, E,
pins the perpendicular coordinate flush against the chosen edge, and
clamps the other coordinate into the side span; but only the S and E
projections set a coordinate equal to the core edge itself, while N sets
y to top minus the pin size and W sets x to left minus the pin size, the
pin square touching the edge from outside, so the claim that the fixed
coordinate always equals the edge fails on N and W. -/
theorem project_c4_amended (size grid left top right bottom x y : ℚ)
    (hx : left + size ≤ right) (hy : top + size ≤ bottom)
    (px py : ℚ) (s : Side)
    (hps : projectToPerimeter size grid left top right bottom x y = (px, py, s)) :
    ((s = Side.N → py = top - size ∧ left ≤ px ∧ px ≤ right - size) ∧
     (s = Side.S → py = bottom ∧ left ≤ px ∧ px ≤ right - size) ∧
     (s = Side.W → px = left - size ∧ top ≤ py ∧ py ≤ bottom - size) ∧
     (s = Side.E → px = right ∧ top ≤ py ∧ py ≤ bottom - size)) ∧
    ((s = Side.N ↔ |y + size / 2 - top| ≤ |y + size / 2 - bottom| ∧
        |y + size / 2 - top| ≤ |x + size / 2 - left| ∧
        |y + size / 2 - top| ≤ |x + size / 2 - right|) ∧
     (s = Side.S ↔ |y + size / 2 - bottom| < |y + size / 2 - top| ∧
        |y + size / 2 - bottom| ≤ |x + size / 2 - left| ∧
        |y + size / 2 - bottom| ≤ |x + size / 2 - right|) ∧
     (s = Side.W ↔ |x + size / 2 - left| < |y + size / 2 - top| ∧
        |x + size / 2 - left| < |y + size / 2 - bottom| ∧
        |x + size / 2 - left| ≤ |x + size / 2 - right|) ∧
     (s = Side.E ↔ |x + size / 2 - right| < |y + size / 2 - top| ∧
        |x + size / 2 - right| < |y + size / 2 - bottom| ∧
        |x + size / 2 - right| < |x + size / 2 - left|)) := by
  cases hside : chooseSide (|y + size / 2 - top|) (|y + size / 2 - bottom|)
      (|x + size / 2 - left|) (|x + size / 2 - right|) with
  | N =>
    rw [projectToPerimeter, hside] at hps
    simp only [projectOnSide, Prod.mk.injEq] at hps
    obtain ⟨hpx, hpy, hs⟩ := hps
    subst hpx
    subst hpy
    subst hs
    have hmain := (chooseSide_eq_N_iff _ _ _ _).mp hside
    exact ⟨⟨fun _ => ⟨rfl, le_max_left _ _, max_le (by linarith) (min_le_right _ _)⟩,
      fun h => absurd h (by decide),
      fun h => absurd h (by decide),
      fun h => absurd h (by decide)⟩,
      ⟨fun _ => hmain, fun _ => rfl⟩,
      ⟨fun h => absurd h (by decide), fun hp => absurd (hside.symm.trans ((chooseSide_eq_S_iff _ _ _ _).mpr hp)) (by decide)⟩,
      ⟨fun h => absurd h (by decide), fun hp => absurd (hside.symm.trans ((chooseSide_eq_W_iff _ _ _ _).mpr hp)) (by decide)⟩,
      ⟨fun h => absurd h (by decide), fun hp => absurd (hside.symm.trans ((chooseSide_eq_E_iff _ _ _ _).mpr hp)) (by decide)⟩⟩
  | S =>
    rw [projectToPerimeter, hside] at hps
    simp only [projectOnSide, Prod.mk.injEq] at hps
    obtain ⟨hpx, hpy, hs⟩ := hps
    subst hpx
    subst hpy
    subst hs
    have hmain := (chooseSide_eq_S_iff _ _ _ _).mp hside
    exact ⟨⟨fun h => absurd h (by decide),
      fun _ => ⟨rfl, le_max_left _ _, max_le (by linarith) (min_le_right _ _)⟩,
      fun h => absurd h (by decide),
      fun h => absurd h (by decide)⟩,
      ⟨fun h => absurd h (by decide), fun hp => absurd (hside.symm.trans ((chooseSide_eq_N_iff _ _ _ _).mpr hp)) (by decide)⟩,
      ⟨fun _ => hmain, fun _ => rfl⟩,
      ⟨fun h => absurd h (by decide), fun hp => absurd (hside.symm.trans ((chooseSide_eq_W_iff _ _ _ _).mpr hp)) (by decide)⟩,
      ⟨fun h => absurd h (by decide), fun hp => absurd (hside.symm.trans ((chooseSide_eq_E_iff _ _ _ _).mpr hp)) (by decide)⟩⟩
  | W =>
    rw [projectToPerimeter, hside] at hps
    simp only [projectOnSide, Prod.mk.injEq] at hps
    obtain ⟨hpx, hpy, hs⟩ := hps
    subst hpx
    subst hpy
    subst hs
    have hmain := (chooseSide_eq_W_iff _ _ _ _).mp hside
    exact ⟨⟨fun h => absurd h (by decide),
      fun h => absurd h (by decide),
      fun _ => ⟨rfl, le_max_left _ _, max_le (by linarith) (min_le_right _ _)⟩,
      fun h => absurd h (by decide)⟩,
      ⟨fun h => absurd h (by decide), fun hp => absurd (hside.symm.trans ((chooseSide_eq_N_iff _ _ _ _).mpr hp)) (by decide)⟩,
      ⟨fun h => absurd h (by decide), fun hp => absurd (hside.symm.trans ((chooseSide_eq_S_iff _ _ _ _).mpr hp)) (by decide)⟩,
      ⟨fun _ => hmain, fun _ => rfl⟩,
      ⟨fun h => absurd h (by decide), fun hp => absurd (hside.symm.trans ((chooseSide_eq_E_iff _ _ _ _).mpr hp)) (by decide)⟩⟩
  | E =>
    rw [projectToPerimeter, hside] at hps
    simp only [projectOnSide, Prod.mk.injEq] at hps
    obtain ⟨hpx, hpy, hs⟩ := hps
    subst hpx
    subst hpy
    subst hs
    have hmain := (chooseSide_eq_E_iff _ _ _ _).mp hside
    exact ⟨⟨fun h => absurd h (by decide),
      fun h => absurd h (by decide),
      fun h => absurd h (by decide),
      fun _ => ⟨rfl, le_max_left _ _, max_le (by linarith) (min_le_right _ _)⟩⟩,
      ⟨fun h => absurd h (by decide), fun hp => absurd (hside.symm.trans ((chooseSide_eq_N_iff _ _ _ _).mpr hp)) (by decide)⟩,
      ⟨fun h => absurd h (by decide), fun hp => absurd (hside.symm.trans ((chooseSide_eq_S_iff _ _ _ _).mpr hp)) (by decide)⟩,
      ⟨fun h => absurd h (by decide), fun hp => absurd (hside.symm.trans ((chooseSide_eq_W_iff _ _ _ _).mpr hp)) (by decide)⟩,
      ⟨fun _ => hmain, fun _ => rfl⟩⟩

/-- C4 counterexample: a pin of size 16 on grid 20 proposed at the top
edge of the core from 40, 40 to 960, 960 projects to side N with
corrected position 500, 24; neither corrected coordinate equals any core
edge, and in particular the y coordinate fixed by the N projection is
top minus the pin size, 24, not the top edge 40 the claim asserts. -/
theorem project_c4_counterexample :
    projectToPerimeter 16 20 40 40 960 960 500 40 = (500, 24, Side.N) ∧
    ((24:ℚ) ≠ 40 ∧ (24:ℚ) ≠ 960 ∧ (500:ℚ) ≠ 40 ∧ (500:ℚ) ≠ 960) := by
  constructor
  · have hcs : chooseSide (|(40:ℚ) + 16 / 2 - 40|) (|(40:ℚ) + 16 / 2 - 960|)
        (|(500:ℚ) + 16 / 2 - 40|) (|(500:ℚ) + 16 / 2 - 960|) = Side.N := by
      have h1 : |(40:ℚ) + 16 / 2 - 40| = 8 := by norm_num
      have h2 : |(40:ℚ) + 16 / 2 - 960| = 912 := by norm_num
      have h3 : |(500:ℚ) + 16 / 2 - 40| = 468 := by norm_num
      have h4 : |(500:ℚ) + 16 / 2 - 960| = 452 := by norm_num
      rw [h1, h2, h3, h4]
      exact (chooseSide_eq_N_iff 8 912 468 452).mpr (by norm_num)
    rw [projectToPerimeter, hcs]
    simp only [projectOnSide, Prod.mk.injEq]
    refine ⟨?_, by norm_num, trivial⟩
    norm_num [_snap, pythonRound]
  · norm_num

/-- C4 witness: the amended theorem applied to the counterexample input,
instantiating the N branch of the projection contract. -/
theorem project_c4_witness :
    (24:ℚ) = 40 - 16 ∧ (40:ℚ) ≤ 500 ∧ (500:ℚ) ≤ 960 - 16 :=
  ((project_c4_amended 16 20 40 40 960 960 500 40 (by norm_num) (by norm_num)
    500 24 Side.N (by
      have hcs : chooseSide (|(40:ℚ) + 16 / 2 - 40|) (|(40:ℚ) + 16 / 2 - 960|)
          (|(500:ℚ) + 16 / 2 - 40|) (|(500:ℚ) + 16 / 2 - 960|) = Side.N := by
        have h1 : |(40:ℚ) + 16 / 2 - 40| = 8 := by norm_num
        have h2 : |(40:ℚ) + 16 / 2 - 960| = 912 := by norm_num
        have h3 : |(500:ℚ) + 16 / 2 - 40| = 468 := by norm_num
        have h4 : |(500:ℚ) + 16 / 2 - 960| = 452 := by norm_num
        rw [h1, h2, h3, h4]
        exact (chooseSide_eq_N_iff 8 912 468 452).mpr (by norm_num)
      rw [projectToPerimeter, hcs]
      simp only [projectOnSide, Prod.mk.injEq]
      refine ⟨?_, by norm_num, trivial⟩
      norm_num [_snap, pythonRound])).1.1) rfl

/-- C5 (confirmed): whenever the snapped and clamped candidate of a
proposed module move passes the occupancy test (the move is accepted),
the move handler returns exactly that candidate, the module rectangle
fits inside the core, and its halo expansion stays disjoint, with
positive-area overlap as the intersection notion of QRectF, from every
other module's halo expansion, which amounts to a gap of at least twice
the halo between the raw rectangles in one axis direction. Stated for
modules that fit inside the core span. -/
theorem block_move_c5 (grid halo left top right bottom w h : ℚ)
    (mods : List (Str × RectQ)) (inst : Str) (oldx oldy px py cx cy : ℚ)
    (hw : left + w ≤ right) (hh : top + h ≤ bottom)
    (hc : blockCandidate grid left top right bottom w h px py = (cx, cy))
    (hacc : ¬ occupiedL mods inst halo ⟨cx, cy, w, h⟩) :
    blockItemChange grid halo left top right bottom w h mods inst
        oldx oldy px py = (cx, cy) ∧
    (left ≤ cx ∧ cx + w ≤ right ∧ top ≤ cy ∧ cy + h ≤ bottom) ∧
    (∀ m ∈ mods, m.1 ≠ inst →
      cx + w + 2 * halo ≤ m.2.x ∨ m.2.x + m.2.w + 2 * halo ≤ cx ∨
      cy + h + 2 * halo ≤ m.2.y ∨ m.2.y + m.2.h + 2 * halo ≤ cy) := by
  have hcx : cx = min (max left (_snap px grid)) (right - w) := by
    have := congrArg Prod.fst hc
    simpa [blockCandidate] using this.symm
  have hcy : cy = min (max top (_snap py grid)) (bottom - h) := by
    have := congrArg Prod.snd hc
    simpa [blockCandidate] using this.symm
  refine ⟨?_, ⟨?_, ?_, ?_, ?_⟩, ?_⟩
  · simp only [blockItemChange, hc]
    rw [if_neg hacc]
  · rw [hcx]
    exact le_min (le_max_left _ _) (by linarith)
  · have : cx ≤ right - w := by rw [hcx]; exact min_le_right _ _
    linarith
  · rw [hcy]
    exact le_min (le_max_left _ _) (by linarith)
  · have : cy ≤ bottom - h := by rw [hcy]; exact min_le_right _ _
    linarith
  · intro m hm hne
    by_contra hcon
    push_neg at hcon
    obtain ⟨h1, h2, h3, h4⟩ := hcon
    exact hacc ⟨m, hm, hne, by
      simp only [intersects, adjustedBy]
      refine ⟨by linarith, by linarith, by linarith, by linarith⟩⟩

/-- C5 witness: a move of module a on a 40 to 960 core, snapping the
proposal 47, 52 to 40, 60, far away from the only other module b at
200, 200, is accepted with all the stated consequences. -/
theorem block_move_c5_witness :
    blockItemChange 20 4 40 40 960 960 100 100
        [(str "b", ⟨200, 200, 100, 100⟩)] (str "a") 300 300 47 52 = (40, 60) :=
  (block_move_c5 20 4 40 40 960 960 100 100
    [(str "b", ⟨200, 200, 100, 100⟩)] (str "a") 300 300 47 52 40 60
    (by norm_num) (by norm_num)
    (by
      simp only [blockCandidate, Prod.mk.injEq]
      constructor <;> norm_num [_snap, pythonRound])
    (by
      intro hocc
      obtain ⟨m, hm, hne, hint⟩ := hocc
      simp only [List.mem_singleton] at hm
      subst hm
      simp only [intersects, adjustedBy] at hint
      obtain ⟨i1, i2, i3, i4⟩ := hint
      norm_num at i2)).1

/-- C6 (confirmed): whenever the snapped and clamped candidate of a
proposed module move fails the occupancy test, the move handler returns
exactly the pair of stored last known good coordinates of the module:
nothing else of the proposal survives, so no partial or garbled position
is ever applied on rejection. -/
theorem block_move_c6 (grid halo left top right bottom w h : ℚ)
    (mods : List (Str × RectQ)) (inst : Str) (oldx oldy px py cx cy : ℚ)
    (hc : blockCandidate grid left top right bottom w h px py = (cx, cy))
    (hrej : occupiedL mods inst halo ⟨cx, cy, w, h⟩) :
    blockItemChange grid halo left top right bottom w h mods inst
        oldx oldy px py = (oldx, oldy) := by
  simp only [blockItemChange, hc]
  rw [if_pos hrej]

/-- C6 witness: the proposal 187, 193 snaps to 180, 200 which collides
with module b at 200, 200, so the handler returns the stored position
300, 300 unchanged. -/
theorem block_move_c6_witness :
    blockItemChange 20 4 40 40 960 960 100 100
        [(str "b", ⟨200, 200, 100, 100⟩)] (str "a") 300 300 187 193 =
      (300, 300) :=
  block_move_c6 20 4 40 40 960 960 100 100
    [(str "b", ⟨200, 200, 100, 100⟩)] (str "a") 300 300 187 193 180 200
    (by
      simp only [blockCandidate, Prod.mk.injEq]
      constructor <;> norm_num [_snap, pythonRound])
    ⟨(str "b", ⟨200, 200, 100, 100⟩), List.mem_singleton.mpr rfl,
      by decide,
      by
        simp only [intersects, adjustedBy]
        refine ⟨by norm_num, by norm_num, by norm_num, by norm_num⟩⟩

theorem moduleBase_100 : moduleBase 100 = 10 := by
  have h : intSqrt 100 = 10 := by decide
  simp [moduleBase, pySqrt, h]

theorem moduleBase_400 : moduleBase 400 = 20 := by
  have h : intSqrt 400 = 20 := by decide
  simp [moduleBase, pySqrt, h]

theorem buildDesign_c2_eval :
    buildDesignModules 200 200 5 0 (1/2) 10 [(str "A", 100), (str "B", 400)] =
      [(str "A", 50, 5, 5), (str "B", 100, 60, 5)] := by
  simp only [buildDesignModules, List.map_cons, List.map_nil, moduleBase_100,
    moduleBase_400, List.foldr_cons, List.foldr_nil]
  norm_num [pythonRound]
  simp only [packRows, moduleBase_100, moduleBase_400]
  norm_num [pythonRound, str]

/-- C2 counterexample: on the spec scenario, areas 100 and 400 with
maxSideFrac one half, minSidePx 10 and a 200 by 200 core (die 200 by 200
with margin 0, grid 5), the computed sides are 50 and 100, not the 10
and 20 the claim states: with maxBase 20, targetMaxSide 100 and k equal
5, module A gets max(minSide, round(10 times 5)) equal 50. -/
theorem pack_c2_counterexample :
    (buildDesignModules 200 200 5 0 (1/2) 10
        [(str "A", 100), (str "B", 400)]).map (fun m => m.2.1) =
      [50, 100] ∧ ([50, 100] : List ℤ) ≠ [10, 20] := by
  constructor
  · rw [buildDesign_c2_eval]
    decide
  · decide

/-- C2 (corrected): on the spec scenario the sizing formula yields sides
50 and 100 (maxBase 20, targetMaxSide 100, k equal 5, side equal
max(minSide, round(base times k))), and the two modules are placed in
row packed order without overlap: A at 5, 5 with side 50 and B at 60, 5
with side 100, the first ending at x equal 55 strictly left of the
second. -/
theorem pack_c2_amended :
    buildDesignModules 200 200 5 0 (1/2) 10 [(str "A", 100), (str "B", 400)] =
      [(str "A", 50, 5, 5), (str "B", 100, 60, 5)] ∧
    (5:ℤ) + 50 ≤ 60 :=
  ⟨buildDesign_c2_eval, by decide⟩

theorem getLastD_append (l1 l2 : List ℤ) (d : ℤ) :
    (l1 ++ l2).getLastD d = l2.getLastD (l1.getLastD d) := by
  induction l1 generalizing d with
  | nil => rfl
  | cons a t ih =>
      rw [List.cons_append, List.getLastD_cons, List.getLastD_cons, ih]

theorem chain_append_ext {r : ℤ → ℤ → Prop} (c : ℤ) (l1 l2 : List ℤ)
    (h1 : List.Chain r c l1) (h2 : List.Chain r (l1.getLastD c) l2) :
    List.Chain r c (l1 ++ l2) := by
  induction l1 generalizing c with
  | nil => exact h2
  | cons a t ih =>
      rw [List.getLastD_cons] at h2
      obtain ⟨hra, hch⟩ := List.chain_cons.mp h1
      exact List.chain_cons.mpr ⟨hra, ih a hch h2⟩

theorem placeBits_spec (step minOff maxOff start : ℤ) (hstep : 1 ≤ step)
    (hmm : minOff ≤ maxOff) (n : ℕ) :
    ∀ (i : ℕ) (cursor : ℤ), cursor ≤ maxOff →
      List.Chain (fun a b => a < b ∨ (a = maxOff ∧ b = maxOff)) cursor
          (placeBits step minOff maxOff start n i cursor).1 ∧
      (placeBits step minOff maxOff start n i cursor).2 ≤ maxOff ∧
      (placeBits step minOff maxOff start n i cursor).1.getLastD cursor =
        (placeBits step minOff maxOff start n i cursor).2 := by
  induction n with
  | zero =>
      intro i cursor hc
      exact ⟨List.Chain.nil, hc, rfl⟩
  | succ n ih =>
      intro i cursor hc
      simp only [placeBits]
      set off0 := max minOff (min (start + (i : ℤ) * step) maxOff) with hoff0
      have hoff0le : off0 ≤ maxOff := max_le hmm (min_le_right _ _)
      by_cases hf : off0 ≤ cursor
      · rw [if_pos hf]
        have hoffle : min (cursor + step) maxOff ≤ maxOff := min_le_right _ _
        have hrel : cursor < min (cursor + step) maxOff ∨
            (cursor = maxOff ∧ min (cursor + step) maxOff = maxOff) := by
          rcases lt_or_eq_of_le hc with hlt | heq
          · exact Or.inl (lt_min (by linarith) hlt)
          · exact Or.inr ⟨heq, by rw [heq]; exact min_eq_right (by linarith)⟩
        obtain ⟨ih1, ih2, ih3⟩ := ih (i + 1) (min (cursor + step) maxOff) hoffle
        exact ⟨List.chain_cons.mpr ⟨hrel, ih1⟩, ih2,
          by rw [List.getLastD_cons]; exact ih3⟩
      · rw [if_neg hf]
        push_neg at hf
        obtain ⟨ih1, ih2, ih3⟩ := ih (i + 1) off0 hoff0le
        exact ⟨List.chain_cons.mpr ⟨Or.inl hf, ih1⟩, ih2,
          by rw [List.getLastD_cons]; exact ih3⟩

theorem placePin_spec (step minOff maxOff : ℤ) (ports : List (Str × ℤ))
    (hstep : 1 ≤ step) (hmm : minOff ≤ maxOff) (cursor : ℤ)
    (pin : Str × ℤ) (hc : cursor ≤ maxOff) :
    List.Chain (fun a b => a < b ∨ (a = maxOff ∧ b = maxOff)) cursor
        (placePin step minOff maxOff ports cursor pin).1 ∧
    (placePin step minOff maxOff ports cursor pin).2 ≤ maxOff ∧
    (placePin step minOff maxOff ports cursor pin).1.getLastD cursor =
      (placePin step minOff maxOff ports cursor pin).2 := by
  simp only [placePin]
  exact placeBits_spec step minOff maxOff _ hstep hmm _ 0 cursor hc

theorem placeSideAux_spec (step minOff maxOff : ℤ) (ports : List (Str × ℤ))
    (hstep : 1 ≤ step) (hmm : minOff ≤ maxOff) (pins : List (Str × ℤ)) :
    ∀ (lines : List ℤ) (cursor c0 : ℤ), cursor ≤ maxOff →
      List.Chain (fun a b => a < b ∨ (a = maxOff ∧ b = maxOff)) c0 lines →
      lines.getLastD c0 = cursor →
      List.Chain (fun a b => a < b ∨ (a = maxOff ∧ b = maxOff)) c0
        ((pins.foldl
          (fun acc pin =>
            let r := placePin step minOff maxOff ports acc.2 pin
            (acc.1 ++ r.1, r.2)) (lines, cursor)).1) := by
  induction pins with
  | nil =>
      intro lines cursor c0 _ hch _
      exact hch
  | cons p ps ih =>
      intro lines cursor c0 hc hch hlast
      simp only [List.foldl_cons]
      obtain ⟨h1, h2, h3⟩ :=
        placePin_spec step minOff maxOff ports hstep hmm cursor p hc
      refine ih (lines ++ (placePin step minOff maxOff ports cursor p).1)
        (placePin step minOff maxOff ports cursor p).2 c0 h2 ?_ ?_
      · exact chain_append_ext c0 lines _ hch (by rw [hlast]; exact h1)
      · rw [getLastD_append, hlast]
        exact h3

/-- C1 (corrected): along each side of the pin placement file the
emitted offsets never decrease, and each offset strictly exceeds its
predecessor except that, once the cursor has reached the side's maximum
offset, every further bit of the side is emitted exactly at that maximum:
the forcing step advances a lagging bit to the minimum of previous cursor
plus step and the side maximum, not always to previous cursor plus
step. -/
theorem placeSide_c1_amended (step minOff maxOff : ℤ)
    (ports : List (Str × ℤ)) (pins : List (Str × ℤ))
    (hstep : 1 ≤ step) (h0 : 0 ≤ minOff) (hmm : minOff ≤ maxOff) :
    List.Chain' (fun a b => a < b ∨ (a = maxOff ∧ b = maxOff))
      (placeSide step minOff maxOff ports pins) := by
  have h := placeSideAux_spec step minOff maxOff ports hstep hmm pins
    [] (-(10 ^ 9)) (-(10 ^ 9)) (by linarith) List.Chain.nil rfl
  unfold placeSide
  rcases hout : (pins.foldl
      (fun acc pin =>
        let r := placePin step minOff maxOff ports acc.2 pin
        (acc.1 ++ r.1, r.2)) (([] : List ℤ), -(10 ^ 9 : ℤ))).1 with _ | ⟨b, t⟩
  · exact trivial
  · rw [hout] at h
    exact (List.chain_cons.mp h).2

/-- C1 witness: the amended chain property applied to the concrete side
of the counterexample, one three bit bus on a twenty unit side. -/
theorem placeSide_c1_witness :
    List.Chain' (fun a b => a < b ∨ (a = (20:ℤ) ∧ b = 20))
      (placeSide 20 0 20 [(['a'], 3)] [(['a'], 10)]) :=
  placeSide_c1_amended 20 0 20 [(['a'], 3)] [(['a'], 10)]
    (by norm_num) (by norm_num) (by norm_num)

/-- C1 counterexample: one three bit port on a side of length twenty with
step twenty (grid twenty on a twenty unit core span) emits offsets 0, 20,
20: the third bit is clamped to the side end, fails to pass the cursor,
and the forcing step min(cursor plus step, maxOff) re-emits 20, so the
emitted offsets of one side are not strictly increasing. -/
theorem placeSide_c1_counterexample :
    placeSide 20 0 20 [(['a'], 3)] [(['a'], 10)] = [0, 20, 20] ∧
    ¬ List.Chain' (fun a b : ℤ => a < b) [0, 20, 20] := by
  constructor
  · norm_num [placeSide, placePin, placeBits, pythonRound]
  · intro h
    have h2 := (List.chain'_cons.mp h).2
    exact absurd (List.chain'_cons.mp h2).1 (by norm_num)

/-- C7 (confirmed): for every declared net, the emitted endpoint list is
the deduplicated sorted union of the endpoint lists of the net's bits:
it is sorted, has no duplicates, and contains exactly the endpoints of
some bit of the net; the net is emitted if and only if at least two
distinct endpoints remain; the bus width is the bit count floored at one;
and the emitted design nets are exactly the some results of this per net
emission over the declared nets in order. -/
theorem ingest_c7 (cells : List (Str × List (Str × List ℤ)))
    (tops : List (Str × List ℤ)) (nets : List (Str × List ℤ))
    (nname : Str) (bits : List ℤ) :
    ((emitNet cells tops (nname, bits)).isSome ↔
      2 ≤ ((bits.bind (bitEndpoints cells tops)).dedup).length) ∧
    (∀ rec, emitNet cells tops (nname, bits) = some rec →
      rec.name = nname ∧
      rec.endpoints.Sorted (· ≤ ·) ∧
      rec.endpoints.Nodup ∧
      (∀ e, e ∈ rec.endpoints ↔ ∃ b ∈ bits, e ∈ bitEndpoints cells tops b) ∧
      2 ≤ rec.endpoints.length ∧
      rec.bw = max 1 bits.length) ∧
    (∀ rec, rec ∈ netsOut cells tops nets ↔
      ∃ nn ∈ nets, emitNet cells tops nn = some rec) := by
  have hperm := List.perm_insertionSort (α := Str) (· ≤ ·)
    ((bits.bind (bitEndpoints cells tops)).dedup)
  have hlen : (sortedNetEps cells tops bits).length =
      ((bits.bind (bitEndpoints cells tops)).dedup).length := by
    exact hperm.length_eq
  refine ⟨?_, ?_, ?_⟩
  · simp only [emitNet]
    by_cases hc : 2 ≤ (sortedNetEps cells tops bits).length
    · rw [if_pos hc]
      simp [hlen ▸ hc]
    · rw [if_neg hc]
      rw [hlen] at hc
      simpa using hc
  · intro rec hrec
    simp only [emitNet] at hrec
    by_cases hc : 2 ≤ (sortedNetEps cells tops bits).length
    · rw [if_pos hc] at hrec
      obtain rfl := (Option.some.injEq _ _).mp hrec
      refine ⟨rfl, ?_, ?_, ?_, hc, rfl⟩
      · exact List.sorted_insertionSort _ _
      · exact hperm.nodup_iff.mpr (List.nodup_dedup _)
      · intro e
        rw [show (NetOut.mk nname (sortedNetEps cells tops bits)
            ((sortedNetEps cells tops bits).length - 1)
            (max 1 bits.length)).endpoints = sortedNetEps cells tops bits
          from rfl]
        rw [sortedNetEps, hperm.mem_iff, List.mem_dedup, List.mem_bind]
    · rw [if_neg hc] at hrec
      exact absurd hrec (by simp)
  · intro rec
    simp only [netsOut, List.mem_filterMap]

/-- C7 witness: a net over one bit shared by cells u1, u2 and top port
clk has three distinct endpoints, so it is emitted. -/
theorem ingest_c7_witness :
    (emitNet [(['u','1'], [(['d'], [2])]), (['u','2'], [(['d'], [2])])]
        [(['c','l','k'], [2])] (['n'], [2])).isSome :=
  (ingest_c7 [(['u','1'], [(['d'], [2])]), (['u','2'], [(['d'], [2])])]
    [(['c','l','k'], [2])] [] ['n'] [2]).1.mpr (by decide)

theorem pairKey_eq_iff (x y u v : Str) :
    pairKey x y = pairKey u v ↔ (x = u ∧ y = v) ∨ (x = v ∧ y = u) := by
  unfold pairKey
  by_cases h1 : x ≤ y <;> by_cases h2 : u ≤ v
  · rw [if_pos h1, if_pos h2]
    simp only [Prod.mk.injEq]
    constructor
    · exact fun h => Or.inl h
    · rintro (⟨rfl, rfl⟩ | ⟨rfl, rfl⟩)
      · exact ⟨rfl, rfl⟩
      · exact ⟨le_antisymm h1 h2, le_antisymm h2 h1⟩
  · rw [if_pos h1, if_neg h2]
    simp only [Prod.mk.injEq]
    constructor
    · exact fun h => Or.inr h
    · rintro (⟨rfl, rfl⟩ | ⟨rfl, rfl⟩)
      · exact absurd h1 h2
      · exact ⟨rfl, rfl⟩
  · rw [if_neg h1, if_pos h2]
    simp only [Prod.mk.injEq]
    constructor
    · rintro ⟨rfl, rfl⟩
      exact Or.inr ⟨rfl, rfl⟩
    · rintro (⟨rfl, rfl⟩ | ⟨rfl, rfl⟩)
      · exact absurd h2 h1
      · exact ⟨rfl, rfl⟩
  · rw [if_neg h1, if_neg h2]
    simp only [Prod.mk.injEq]
    constructor
    · rintro ⟨rfl, rfl⟩
      exact Or.inl ⟨rfl, rfl⟩
    · rintro (⟨rfl, rfl⟩ | ⟨rfl, rfl⟩)
      · exact ⟨rfl, rfl⟩
      · exact absurd (le_of_not_le h1) (by
          intro h
          exact h2 h)
  
theorem foldl_bumpPair_count (w : ℚ) (ps : List (Str × Str)) :
    ∀ (f : Str × Str → ℚ) (k : Str × Str),
      (ps.foldl (fun g p => bump g (pairKey p.1 p.2) w) f) k =
        f k + w * (ps.countP (fun p => decide (pairKey p.1 p.2 = k)) : ℚ) := by
  induction ps with
  | nil =>
      intro f k
      simp
  | cons p t ih =>
      intro f k
      rw [List.foldl_cons, ih, List.countP_cons]
      by_cases hk : pairKey p.1 p.2 = k
      · rw [show (bump f (pairKey p.1 p.2) w) k = f k + w by
            unfold bump
            rw [if_pos hk.symm]]
        simp [hk]
        ring
      · rw [show (bump f (pairKey p.1 p.2) w) k = f k by
            unfold bump
            rw [if_neg (fun h => hk h.symm)]]
        simp [hk]

theorem foldl_bumpId_count (w : ℚ) (ps : List (Str × Str)) :
    ∀ (f : Str × Str → ℚ) (k : Str × Str),
      (ps.foldl (fun g p => bump g p w) f) k =
        f k + w * (ps.countP (fun p => decide (p = k)) : ℚ) := by
  induction ps with
  | nil =>
      intro f k
      simp
  | cons p t ih =>
      intro f k
      rw [List.foldl_cons, ih, List.countP_cons]
      by_cases hk : p = k
      · rw [show (bump f p w) k = f k + w by
            unfold bump
            rw [if_pos hk.symm]]
        simp [hk]
        ring
      · rw [show (bump f p w) k = f k by
            unfold bump
            rw [if_neg (fun h => hk h.symm)]]
        simp [hk]

theorem listPairs_mem {l : List Str} {p : Str × Str}
    (hp : p ∈ listPairs l) : p.1 ∈ l ∧ p.2 ∈ l := by
  induction l with
  | nil => cases hp
  | cons c t ih =>
      rw [listPairs, List.mem_append] at hp
      rcases hp with hp | hp
      · obtain ⟨q, hq, rfl⟩ := List.mem_map.mp hp
        exact ⟨List.mem_cons_self _ _, List.mem_cons_of_mem _ hq⟩
      · obtain ⟨h1, h2⟩ := ih hp
        exact ⟨List.mem_cons_of_mem _ h1, List.mem_cons_of_mem _ h2⟩

theorem countP_eq_one_of_nodup_mem (t : List Str) (htd : t.Nodup)
    (b : Str) (hbt : b ∈ t) :
    t.countP (fun q => decide (q = b)) = 1 := by
  induction t with
  | nil => cases hbt
  | cons c r ih =>
      obtain ⟨hcr, hrd⟩ := List.nodup_cons.mp htd
      rw [List.countP_cons]
      by_cases h : c = b
      · subst h
        have h0 : r.countP (fun q => decide (q = c)) = 0 := by
          rw [List.countP_eq_zero]
          intro q hq
          simp only [decide_eq_true_eq]
          rintro rfl
          exact hcr hq
        simp [h0]
      · have hbr : b ∈ r := by
          rcases List.mem_cons.mp hbt with h' | h'
          · exact absurd h'.symm h
          · exact h'
        simp [h, ih hrd hbr]

theorem countP_pairKey_listPairs (l : List Str) (hl : l.Nodup)
    (a b : Str) (hne : a ≠ b) (ha : a ∈ l) (hb : b ∈ l) :
    (listPairs l).countP (fun p => decide (pairKey p.1 p.2 = pairKey a b)) =
      1 := by
  induction l with
  | nil => cases ha
  | cons c t ih =>
      obtain ⟨hct, htd⟩ := List.nodup_cons.mp hl
      rw [listPairs, List.countP_append, List.countP_map]
      by_cases hac : a = c
      · subst hac
        have hbt : b ∈ t := by
          rcases List.mem_cons.mp hb with h | h
          · exact absurd h.symm hne
          · exact h
        have hmap : (t.countP
            ((fun p => decide (pairKey p.1 p.2 = pairKey a b)) ∘
              fun q => (a, q))) = 1 := by
          rw [List.countP_congr (q := fun q => decide (q = b))]
          · exact countP_eq_one_of_nodup_mem t htd b hbt
          · intro q hq
            simp only [Function.comp_apply, decide_eq_true_eq]
            rw [pairKey_eq_iff]
            constructor
            · rintro (⟨-, h⟩ | ⟨h1, -⟩)
              · exact h
              · exact absurd h1 hne
            · intro h
              exact Or.inl ⟨rfl, h⟩
        have hrec : (listPairs t).countP
            (fun p => decide (pairKey p.1 p.2 = pairKey a b)) = 0 := by
          rw [List.countP_eq_zero]
          intro p hp
          simp only [decide_eq_true_eq]
          rw [pairKey_eq_iff]
          rintro (⟨h1, -⟩ | ⟨-, h2⟩)
          · exact hct (h1 ▸ (listPairs_mem hp).1)
          · exact hct (h2 ▸ (listPairs_mem hp).2)
        rw [hmap, hrec]
      · by_cases hbc : b = c
        · subst hbc
          have hat : a ∈ t := by
            rcases List.mem_cons.mp ha with h | h
            · exact absurd h hac
            · exact h
          have hmap : (t.countP
              ((fun p => decide (pairKey p.1 p.2 = pairKey a b)) ∘
                fun q => (b, q))) = 1 := by
            rw [List.countP_congr (q := fun q => decide (q = a))]
            · exact countP_eq_one_of_nodup_mem t htd a hat
            · intro q hq
              simp only [Function.comp_apply, decide_eq_true_eq]
              rw [pairKey_eq_iff]
              constructor
              · rintro (⟨h1, -⟩ | ⟨-, h⟩)
                · exact absurd h1 (fun h' => hne h'.symm)
                · exact h
              · intro h
                exact Or.inr ⟨rfl, h⟩
          have hrec : (listPairs t).countP
              (fun p => decide (pairKey p.1 p.2 = pairKey a b)) = 0 := by
            rw [List.countP_eq_zero]
            intro p hp
            simp only [decide_eq_true_eq]
            rw [pairKey_eq_iff]
            rintro (⟨-, h2⟩ | ⟨h1, -⟩)
            · exact hct (h2 ▸ (listPairs_mem hp).2)
            · exact hct (h1 ▸ (listPairs_mem hp).1)
          rw [hmap, hrec]
        · have hat : a ∈ t := by
            rcases List.mem_cons.mp ha with h | h
            · exact absurd h hac
            · exact h
          have hbt : b ∈ t := by
            rcases List.mem_cons.mp hb with h | h
            · exact absurd h hbc
            · exact h
          have hmap : (t.countP
              ((fun p => decide (pairKey p.1 p.2 = pairKey a b)) ∘
                fun q => (c, q))) = 0 := by
            rw [List.countP_eq_zero]
            intro q hq
            simp only [Function.comp_apply, decide_eq_true_eq]
            rw [pairKey_eq_iff]
            rintro (⟨h1, -⟩ | ⟨h1, -⟩)
            · exact hac h1.symm
            · exact hbc h1.symm
          rw [hmap, ih htd hat hbt]

theorem countP_prodMk (ms qs : List Str) (hms : ms.Nodup) (hq : qs.Nodup)
    (m p : Str) (hm : m ∈ ms) (hp : p ∈ qs) :
    (ms.bind fun a => qs.map fun b => (a, b)).countP
      (fun x => decide (x = (m, p))) = 1 := by
  induction ms with
  | nil => cases hm
  | cons c t ih =>
      obtain ⟨hct, htd⟩ := List.nodup_cons.mp hms
      rw [show ((c :: t).bind fun a => qs.map fun b => (a, b)) =
          (qs.map fun b => (c, b)) ++ (t.bind fun a => qs.map fun b => (a, b))
        from rfl]
      rw [List.countP_append, List.countP_map]
      by_cases hcm : c = m
      · subst hcm
        have hmap : qs.countP
            ((fun x => decide (x = (c, p))) ∘ fun b => (c, b)) = 1 := by
          rw [List.countP_congr (q := fun b => decide (b = p))]
          · exact countP_eq_one_of_nodup_mem qs hq p hp
          · intro b hb
            simp only [Function.comp_apply, decide_eq_true_eq,
              Prod.mk.injEq, true_and]
        have hrec : (t.bind fun a => qs.map fun b => (a, b)).countP
            (fun x => decide (x = (c, p))) = 0 := by
          rw [List.countP_eq_zero]
          intro x hx
          obtain ⟨a, hat, hx2⟩ := List.mem_bind.mp hx
          obtain ⟨b, hbq, rfl⟩ := List.mem_map.mp hx2
          simp only [decide_eq_true_eq, Prod.mk.injEq]
          rintro ⟨rfl, -⟩
          exact hct hat
        rw [hmap, hrec]
      · have hmt : m ∈ t := by
          rcases List.mem_cons.mp hm with h | h
          · exact absurd h.symm hcm
          · exact h
        have hmap : qs.countP
            ((fun x => decide (x = (m, p))) ∘ fun b => (c, b)) = 0 := by
          rw [List.countP_eq_zero]
          intro b hb
          simp only [Function.comp_apply, decide_eq_true_eq, Prod.mk.injEq]
          rintro ⟨rfl, -⟩
          exact hcm rfl
        rw [hmap, ih htd hmt]

theorem addNetMM_once (f : Str × Str → ℚ) (net : GNet) (a b : Str)
    (hne : a ≠ b) (ha : a ∈ netModsL net.endpoints)
    (hb : b ∈ netModsL net.endpoints) :
    addNetMM f net (pairKey a b) = f (pairKey a b) + net.bw := by
  have h1 := foldl_bumpPair_count net.bw (listPairs (netModsL net.endpoints))
    f (pairKey a b)
  rw [countP_pairKey_listPairs (netModsL net.endpoints)
    (List.nodup_dedup _) a b hne ha hb] at h1
  simpa [addNetMM] using h1

theorem addNetMP_once (f : Str × Str → ℚ) (net : GNet) (m p : Str)
    (hm : m ∈ netModsL net.endpoints) (hp : p ∈ netPinsL net.endpoints) :
    addNetMP f net (m, p) = f (m, p) + net.bw := by
  have h1 := foldl_bumpId_count net.bw
    ((netModsL net.endpoints).bind fun m =>
      (netPinsL net.endpoints).map fun p => (m, p)) f (m, p)
  rw [countP_prodMk (netModsL net.endpoints) (netPinsL net.endpoints)
    (List.nodup_dedup _) (List.nodup_dedup _) m p hm hp] at h1
  simpa [addNetMP] using h1

/-- C8 (confirmed): in connectivity aggregation each net adds its bus
width exactly once to the weight of every unordered pair of distinct
module instances it connects and exactly once to every module and pin
combination it connects, independent of how many endpoints map to the
same pair; and the single net with endpoints top.clk, u1.d, u2.d and bus
width two yields module edge u1, u2 of weight two and module pin edges
u1, clk and u2, clk of weight two. -/
theorem connectivity_c8 :
    (∀ (f : Str × Str → ℚ) (net : GNet) (a b : Str), a ≠ b →
      a ∈ netModsL net.endpoints → b ∈ netModsL net.endpoints →
      addNetMM f net (pairKey a b) = f (pairKey a b) + net.bw) ∧
    (∀ (f : Str × Str → ℚ) (net : GNet) (m p : Str),
      m ∈ netModsL net.endpoints → p ∈ netPinsL net.endpoints →
      addNetMP f net (m, p) = f (m, p) + net.bw) ∧
    (buildMM [⟨[str "top.clk", str "u1.d", str "u2.d"], 2, 2⟩]
        (pairKey (str "u1") (str "u2")) = 2 ∧
      buildMP [⟨[str "top.clk", str "u1.d", str "u2.d"], 2, 2⟩]
        (str "u1", str "clk") = 2 ∧
      buildMP [⟨[str "top.clk", str "u1.d", str "u2.d"], 2, 2⟩]
        (str "u2", str "clk") = 2) := by
  refine ⟨addNetMM_once, addNetMP_once, ?_, ?_, ?_⟩
  · rw [show buildMM [⟨[str "top.clk", str "u1.d", str "u2.d"], 2, 2⟩] =
        addNetMM (fun _ => 0) ⟨[str "top.clk", str "u1.d", str "u2.d"], 2, 2⟩
      from rfl]
    rw [addNetMM_once _ _ (str "u1") (str "u2") (by decide) (by decide)
      (by decide)]
    norm_num
  · rw [show buildMP [⟨[str "top.clk", str "u1.d", str "u2.d"], 2, 2⟩] =
        addNetMP (fun _ => 0) ⟨[str "top.clk", str "u1.d", str "u2.d"], 2, 2⟩
      from rfl]
    rw [addNetMP_once _ _ (str "u1") (str "clk") (by decide) (by decide)]
    norm_num
  · rw [show buildMP [⟨[str "top.clk", str "u1.d", str "u2.d"], 2, 2⟩] =
        addNetMP (fun _ => 0) ⟨[str "top.clk", str "u1.d", str "u2.d"], 2, 2⟩
      from rfl]
    rw [addNetMP_once _ _ (str "u2") (str "clk") (by decide) (by decide)]
    norm_num

/-- C8 witness: the once per net module to module increment applied at
the example net, starting from the empty weight map. -/
theorem connectivity_c8_witness :
    addNetMM (fun _ => 0) ⟨[str "top.clk", str "u1.d", str "u2.d"], 2, 2⟩
        (pairKey (str "u1") (str "u2")) =
      (fun _ => (0:ℚ)) (pairKey (str "u1") (str "u2")) + 2 :=
  connectivity_c8.1 (fun _ => 0)
    ⟨[str "top.clk", str "u1.d", str "u2.d"], 2, 2⟩
    (str "u1") (str "u2") (by decide) (by decide) (by decide)

theorem foldl_max_mem : ∀ (t : List ℚ) (a : ℚ), t.foldl max a ∈ a :: t := by
  intro t
  induction t with
  | nil => intro a; exact List.mem_singleton.mpr rfl
  | cons b t ih =>
      intro a
      rw [List.foldl_cons]
      rcases List.mem_cons.mp (ih (max a b)) with h | h
      · rcases max_choice a b with hm | hm
        · exact List.mem_cons.mpr (Or.inl (h.trans hm))
        · exact List.mem_cons.mpr (Or.inr (List.mem_cons.mpr
            (Or.inl (h.trans hm))))
      · exact List.mem_cons.mpr (Or.inr (List.mem_cons.mpr (Or.inr h)))

theorem le_foldl_max_init : ∀ (t : List ℚ) (a : ℚ), a ≤ t.foldl max a := by
  intro t
  induction t with
  | nil => intro a; exact le_refl a
  | cons b t ih =>
      intro a
      rw [List.foldl_cons]
      exact le_trans (le_max_left a b) (ih (max a b))

theorem le_foldl_max : ∀ (t : List ℚ) (a x : ℚ), x ∈ a :: t →
    x ≤ t.foldl max a := by
  intro t
  induction t with
  | nil =>
      intro a x hx
      rw [List.foldl_nil]
      exact le_of_eq (List.mem_singleton.mp hx)
  | cons b t ih =>
      intro a x hx
      rw [List.foldl_cons]
      rcases List.mem_cons.mp hx with rfl | hx2
      · exact le_trans (le_max_left x b) (le_foldl_max_init t (max x b))
      · rcases List.mem_cons.mp hx2 with rfl | hx3
        · exact le_trans (le_max_right a x) (le_foldl_max_init t (max a x))
        · exact ih (max a b) x (List.mem_cons.mpr (Or.inr hx3))

theorem foldl_min_mem : ∀ (t : List ℚ) (a : ℚ), t.foldl min a ∈ a :: t := by
  intro t
  induction t with
  | nil => intro a; exact List.mem_singleton.mpr rfl
  | cons b t ih =>
      intro a
      rw [List.foldl_cons]
      rcases List.mem_cons.mp (ih (min a b)) with h | h
      · rcases min_choice a b with hm | hm
        · exact List.mem_cons.mpr (Or.inl (h.trans hm))
        · exact List.mem_cons.mpr (Or.inr (List.mem_cons.mpr
            (Or.inl (h.trans hm))))
      · exact List.mem_cons.mpr (Or.inr (List.mem_cons.mpr (Or.inr h)))

theorem foldl_min_le_init : ∀ (t : List ℚ) (a : ℚ), t.foldl min a ≤ a := by
  intro t
  induction t with
  | nil => intro a; exact le_refl a
  | cons b t ih =>
      intro a
      rw [List.foldl_cons]
      exact le_trans (ih (min a b)) (min_le_left a b)

theorem foldl_min_le : ∀ (t : List ℚ) (a x : ℚ), x ∈ a :: t →
    t.foldl min a ≤ x := by
  intro t
  induction t with
  | nil =>
      intro a x hx
      rw [List.foldl_nil]
      exact le_of_eq (List.mem_singleton.mp hx).symm
  | cons b t ih =>
      intro a x hx
      rw [List.foldl_cons]
      rcases List.mem_cons.mp hx with rfl | hx2
      · exact le_trans (foldl_min_le_init t (min x b)) (min_le_left x b)
      · rcases List.mem_cons.mp hx2 with rfl | hx3
        · exact le_trans (foldl_min_le_init t (min a x)) (min_le_right a x)
        · exact ih (min a b) x (List.mem_cons.mpr (Or.inr hx3))

theorem maxD_mem (l : List ℚ) (hl : l ≠ []) : maxD l ∈ l := by
  cases l with
  | nil => exact absurd rfl hl
  | cons a t => exact foldl_max_mem t a

theorem le_maxD (l : List ℚ) (x : ℚ) (hx : x ∈ l) : x ≤ maxD l := by
  cases l with
  | nil => cases hx
  | cons a t => exact le_foldl_max t a x hx

theorem minD_mem (l : List ℚ) (hl : l ≠ []) : minD l ∈ l := by
  cases l with
  | nil => exact absurd rfl hl
  | cons a t => exact foldl_min_mem t a

theorem minD_le (l : List ℚ) (x : ℚ) (hx : x ∈ l) : minD l ≤ x := by
  cases l with
  | nil => cases hx
  | cons a t => exact foldl_min_le t a x hx

/-- C9 (confirmed): endpoints that fail to resolve are skipped without
affecting the rest of the net; a net with fewer than two resolved points
has HPWL exactly zero; with at least two resolved points the HPWL is the
x spread plus the y spread, where each of the four extrema is attained by
a resolved point and bounds all of them; and the total is the sum of the
per net values over at most the first five hundred nets in declaration
order, which is the sum over all nets whenever at most five hundred nets
exist. -/
theorem hpwl_c9 (mods : List ModRec) (pins : List PinRec)
    (eps : List Str) (ep0 : Str) (nets : List GNet) :
    ((eps.filterMap (resolveEp mods pins)).length < 2 →
      hpwlNet mods pins eps = 0) ∧
    (resolveEp mods pins ep0 = none →
      hpwlNet mods pins (ep0 :: eps) = hpwlNet mods pins eps) ∧
    (2 ≤ (eps.filterMap (resolveEp mods pins)).length →
      ∃ xmax xmin ymax ymin : ℚ,
        (∃ p ∈ eps.filterMap (resolveEp mods pins), p.1 = xmax) ∧
        (∀ p ∈ eps.filterMap (resolveEp mods pins), p.1 ≤ xmax) ∧
        (∃ p ∈ eps.filterMap (resolveEp mods pins), p.1 = xmin) ∧
        (∀ p ∈ eps.filterMap (resolveEp mods pins), xmin ≤ p.1) ∧
        (∃ p ∈ eps.filterMap (resolveEp mods pins), p.2 = ymax) ∧
        (∀ p ∈ eps.filterMap (resolveEp mods pins), p.2 ≤ ymax) ∧
        (∃ p ∈ eps.filterMap (resolveEp mods pins), p.2 = ymin) ∧
        (∀ p ∈ eps.filterMap (resolveEp mods pins), ymin ≤ p.2) ∧
        hpwlNet mods pins eps = (xmax - xmin) + (ymax - ymin)) ∧
    (totalHPWL mods pins nets =
        ((nets.take 500).map (fun n => hpwlNet mods pins n.endpoints)).sum ∧
      (nets.length ≤ 500 →
        totalHPWL mods pins nets =
          (nets.map (fun n => hpwlNet mods pins n.endpoints)).sum)) := by
  refine ⟨?_, ?_, ?_, rfl, ?_⟩
  · intro h
    unfold hpwlNet
    rw [if_pos h]
  · intro h
    unfold hpwlNet
    rw [List.filterMap_cons_none h]
  · intro h
    have hne : eps.filterMap (resolveEp mods pins) ≠ [] := by
      intro hnil
      rw [hnil] at h
      exact absurd h (by norm_num)
    have hxne : (eps.filterMap (resolveEp mods pins)).map Prod.fst ≠ [] := by
      simpa using hne
    have hyne : (eps.filterMap (resolveEp mods pins)).map Prod.snd ≠ [] := by
      simpa using hne
    refine ⟨maxD ((eps.filterMap (resolveEp mods pins)).map Prod.fst),
      minD ((eps.filterMap (resolveEp mods pins)).map Prod.fst),
      maxD ((eps.filterMap (resolveEp mods pins)).map Prod.snd),
      minD ((eps.filterMap (resolveEp mods pins)).map Prod.snd),
      ?_, ?_, ?_, ?_, ?_, ?_, ?_, ?_, ?_⟩
    · obtain ⟨p, hp, he⟩ := List.mem_map.mp (maxD_mem _ hxne)
      exact ⟨p, hp, he⟩
    · intro p hp
      exact le_maxD _ _ (List.mem_map.mpr ⟨p, hp, rfl⟩)
    · obtain ⟨p, hp, he⟩ := List.mem_map.mp (minD_mem _ hxne)
      exact ⟨p, hp, he⟩
    · intro p hp
      exact minD_le _ _ (List.mem_map.mpr ⟨p, hp, rfl⟩)
    · obtain ⟨p, hp, he⟩ := List.mem_map.mp (maxD_mem _ hyne)
      exact ⟨p, hp, he⟩
    · intro p hp
      exact le_maxD _ _ (List.mem_map.mpr ⟨p, hp, rfl⟩)
    · obtain ⟨p, hp, he⟩ := List.mem_map.mp (minD_mem _ hyne)
      exact ⟨p, hp, he⟩
    · intro p hp
      exact minD_le _ _ (List.mem_map.mpr ⟨p, hp, rfl⟩)
    · unfold hpwlNet
      rw [if_neg (not_lt.mpr h)]
  · intro hlen
    unfold totalHPWL
    rw [List.take_of_length_le hlen]

/-- C9 witness: an endpoint naming an unknown module resolves to none,
so a net with only that endpoint has zero resolved points and HPWL
exactly zero. -/
theorem hpwl_c9_witness :
    hpwlNet [] [] [str "zz.q"] = 0 :=
  (hpwl_c9 [] [] [str "zz.q"] (str "zz.q") []).1 (by decide)

/-- C10 (confirmed): every net emitted by ingestion stores a weight field
equal to its distinct endpoint count minus one, hence at least one; and
the connectivity aggregation is invariant under arbitrary changes of the
weight field, because it reads only the endpoints and the bw field. -/
theorem weight_c10 (cells : List (Str × List (Str × List ℤ)))
    (tops : List (Str × List ℤ)) (nets : List (Str × List ℤ))
    (gnets : List GNet) (f : GNet → ℚ) :
    (∀ rec ∈ netsOut cells tops nets,
      rec.weight = rec.endpoints.length - 1 ∧ 1 ≤ rec.weight) ∧
    (buildMM (gnets.map fun n => ⟨n.endpoints, f n, n.bw⟩) = buildMM gnets ∧
      buildMP (gnets.map fun n => ⟨n.endpoints, f n, n.bw⟩) = buildMP gnets) := by
  refine ⟨?_, ?_, ?_⟩
  · intro rec hrec
    obtain ⟨nn, hnn, hemit⟩ := List.mem_filterMap.mp hrec
    simp only [emitNet] at hemit
    by_cases hc : 2 ≤ (sortedNetEps cells tops nn.2).length
    · rw [if_pos hc] at hemit
      obtain rfl := (Option.some.injEq _ _).mp hemit
      refine ⟨rfl, ?_⟩
      show 1 ≤ (sortedNetEps cells tops nn.2).length - 1
      omega
    · rw [if_neg hc] at hemit
      exact absurd hemit (by simp)
  · rw [buildMM, buildMM, List.foldl_map]
    exact List.foldl_ext _ _ _ (fun acc b _ => rfl)
  · rw [buildMP, buildMP, List.foldl_map]
    exact List.foldl_ext _ _ _ (fun acc b _ => rfl)

/-- C10 witness: the ingest example with three distinct endpoints emits a
record with weight two, one less than the endpoint count. -/
theorem weight_c10_witness :
    (⟨['n'], [str "top.clk", str "u1.d", str "u2.d"], 2, 1⟩ : NetOut).weight =
      (⟨['n'], [str "top.clk", str "u1.d", str "u2.d"], 2, 1⟩ :
        NetOut).endpoints.length - 1 ∧
    1 ≤ (⟨['n'], [str "top.clk", str "u1.d", str "u2.d"], 2, 1⟩ :
        NetOut).weight :=
  (weight_c10 [(['u','1'], [(['d'], [2])]), (['u','2'], [(['d'], [2])])]
    [(['c','l','k'], [2])] [(['n'], [2])] [] (fun _ => 0)).1
    ⟨['n'], [str "top.clk", str "u1.d", str "u2.d"], 2, 1⟩ (by decide)
